import Mathlib

/-!
Shallow embedding of the `jls` directory-lister (src/crates/jls/src/main.rs),
centred on the multi-column terminal-width layout in `ls` (lines 195-231)
and the entry pipeline feeding it (lines 110-138).
Strings are modelled as Lean `String`s; lengths are character counts
(the Rust code measures bytes, which coincides on ASCII names).
A Rust panic (here: the division by zero / usize underflow on line 211 when
`columns = 0`) is modelled by returning `none`.
-/

/-- Embedding of lines 199-205: `entries.iter().map(|e| e.len()).max().unwrap_or(0) + 2`. -/
def entryWidth (entries : List String) : Nat :=
  ((entries.map String.length).max?.getD 0) + 2

/-- Embedding of line 208: `let columns = terminal_width / max_entry_width;` (no clamp). -/
def lsColumns (entries : List String) (terminalWidth : Nat) : Nat :=
  terminalWidth / entryWidth entries

/-- Embedding of line 211: `let rows = (entries_paths.len() + columns - 1) / columns;`.
Meaningful only when `lsColumns ≠ 0`; the Rust expression panics otherwise. -/
def lsRows (entries : List String) (terminalWidth : Nat) : Nat :=
  (entries.length + lsColumns entries terminalWidth - 1) / lsColumns entries terminalWidth

/-- Body of the inner `for column in 0..columns` loop, lines 217-225. -/
def lsCell (entries : List String) (maxEntryWidth rows columns row : Nat)
    (output : String) (column : Nat) : String :=
  match entries[row + column * rows]? with
  | some entry =>
    let output := output ++ entry
    if column ≠ columns - 1 then
      output ++ String.mk (List.replicate (maxEntryWidth - entry.length) ' ')
    else output
  | none => output

/-- Body of the outer `for row in 0..rows` loop, lines 216-229. -/
def lsRow (entries : List String) (maxEntryWidth rows columns : Nat)
    (output : String) (row : Nat) : String :=
  let output := (List.range columns).foldl (lsCell entries maxEntryWidth rows columns row) output
  if row ≠ rows - 1 then output.push '\n' else output

/-- Embedding of the grid branch of `ls`, lines 197-230.  The two nested `for`
loops appending to `output` become `List.foldl` over `List.range`.  When
`columns = 0` the Rust code panics (division by zero computing `rows`, or
usize underflow when the listing is empty), modelled as `none`. -/
def lsFormat (entries : List String) (terminalWidth : Nat) : Option String :=
  let maxEntryWidth := entryWidth entries
  let columns := terminalWidth / maxEntryWidth
  if columns = 0 then none
  else
    let rows := (entries.length + columns - 1) / columns
    some ((List.range rows).foldl (lsRow entries maxEntryWidth rows columns) "")

/-- The comparison `Vec::sort` uses, restricted to the strings this program
sorts: all sorted paths are `dir/name` with a common `dir` and single-component
`name`s, where `PathBuf` ordering coincides with lexicographic string order. -/
def strLe (a b : String) : Bool := a ≤ b

/-- The Rust filter condition `name.starts_with('.')` — `starts_with` with a
`char` pattern tests whether the first character is that character. -/
def startsWithDot (name : String) : Bool := name.data.head? = some '.'

/-- Embedding of lines 118-138: collect the directory's entry paths, drop
entries whose file name starts with `'.'` unless `--all` is set, sort, and
render each path as a string.  `read_dir` is abstracted by `names` (the file
names found in `dir`); `entry.path()` joins them as `dir ++ "/" ++ name`, and
the Rust filter tests `path.file_name()`, i.e. exactly `name`. -/
def lsEntryStrings (all : Bool) (dir : String) (names : List String) : List String :=
  let filtered := if all then names else names.filter (fun name => !(startsWithDot name))
  (filtered.map (fun name => dir ++ "/" ++ name)).mergeSort strLe

/-- Embedding of `ls` (lines 110-231) in the non-list mode (`args.list = false`).
Filesystem and terminal access are abstracted: `meta` is the outcome of
`fs::metadata(&path)` (`none` = the `?` error path, `some isDir` otherwise),
`names` the file names `read_dir` yields, and `termWidth` the outcome of the
`crossterm` terminal-size query (`none` = its `?` error path). -/
def lsRun (path : String) (all : Bool) (meta : Option Bool) (names : List String)
    (termWidth : Option Nat) : Option String :=
  match meta with
  | none => none
  | some isDir =>
    if !isDir then some path
    else
      match termWidth with
      | none => none
      | some w => lsFormat (lsEntryStrings all path names) w

/-! ### Grid characterization: the output as rows and cells of characters -/

/-- The characters a single grid cell contributes to the output. -/
def cellChars (entries : List String) (W rows columns row column : Nat) : List Char :=
  match entries[row + column * rows]? with
  | some entry =>
    if column ≠ columns - 1 then entry.data ++ List.replicate (W - entry.length) ' '
    else entry.data
  | none => []

/-- The characters of one output row (without its newline terminator). -/
def rowChars (entries : List String) (W rows columns row : Nat) : List Char :=
  ((List.range columns).map (cellChars entries W rows columns row)).flatten

/-- The whole grid output: the rows joined by single newline separators. -/
def gridChars (entries : List String) (W rows columns : Nat) : List Char :=
  List.intercalate ['\n'] ((List.range rows).map (rowChars entries W rows columns))

/-! ### The layout as the specification words it -/

/-- Modelled from the spec (§4.1 step 5): the content of grid cell
`(row, column)` — the entry at the column-major index `row + column * rows`
when that index is in range, padded with spaces to `entry_width` whenever the
cell is not in the last column (`column ≠ columns - 1`); an out-of-range index
leaves an empty cell with no padding. -/
def specGridCell (entries : List String) (W rows columns row column : Nat) : String :=
  match entries[row + column * rows]? with
  | some entry =>
    if column ≠ columns - 1 then entry ++ String.mk (List.replicate (W - entry.length) ' ')
    else entry
  | none => ""

/-- Modelled from the spec (§4.1 steps 2 and 4-6), taking the spec's column
count as a parameter: `entry_width` is the longest entry length plus 2,
`rows = ⌈n / columns⌉`, each row is the concatenation of its cells, and rows
are separated by single newlines with no trailing newline after the final
row. -/
def specGrid (entries : List String) (columns : Nat) : String :=
  let W := ((entries.map String.length).max?.getD 0) + 2
  let rows := entries.length ⌈/⌉ columns
  String.intercalate "\n" ((List.range rows).map (fun row =>
    String.join ((List.range columns).map (specGridCell entries W rows columns row))))

/-! ### Re-extracting the entries from the output -/

/-- Remove trailing padding spaces from an extracted cell. -/
def dropTrailingSpaces (l : List Char) : List Char :=
  (l.reverse.dropWhile (fun c => c = ' ')).reverse

/-- Split a character sequence at newline characters (the row separators). -/
def splitOnNl (l : List Char) : List (List Char) :=
  match l with
  | [] => [[]]
  | c :: cs =>
    match splitOnNl cs with
    | [] => [[c]]
    | r :: rs => if c = '\n' then [] :: r :: rs else (c :: r) :: rs

/-- Extract the cell of column `column` from a row of the output: the `W`-wide
slice starting at `column * W`, with the trailing padding stripped, except in
the last column, which is unpadded and runs to the end of the row. -/
def extractCellChars (row : List Char) (W columns column : Nat) : List Char :=
  if column = columns - 1 then row.drop (column * W)
  else dropTrailingSpaces ((row.drop (column * W)).take W)

/-- Re-extract all entries from the output, reading the grid column-major:
for each column top to bottom, the cells whose column-major index
`row + column * rows` is in range. -/
def extractEntries (out : List Char) (W rows columns n : Nat) : List (List Char) :=
  (List.range columns).flatMap (fun column =>
    (List.range rows).filterMap (fun row =>
      if row + column * rows < n then
        some (extractCellChars ((splitOnNl out).getD row []) W columns column)
      else none))

theorem lsCell_data (entries : List String) (W rows columns row : Nat)
    (output : String) (column : Nat) :
    (lsCell entries W rows columns row output column).data
      = output.data ++ cellChars entries W rows columns row column := by
  unfold lsCell cellChars
  cases h : entries[row + column * rows]? with
  | none => simp
  | some e =>
    by_cases hc : column = columns - 1 <;>
      simp [hc, String.data_append, List.append_assoc]

theorem foldl_lsCell_data (entries : List String) (W rows columns row : Nat)
    (l : List Nat) (output : String) :
    ((l.foldl (lsCell entries W rows columns row) output)).data
      = output.data ++ (l.map (cellChars entries W rows columns row)).flatten := by
  induction l generalizing output with
  | nil => simp
  | cons c l ih =>
    simp [List.foldl_cons, ih, lsCell_data, List.append_assoc]

theorem lsRow_data (entries : List String) (W rows columns : Nat)
    (output : String) (row : Nat) :
    (lsRow entries W rows columns output row).data
      = output.data ++ rowChars entries W rows columns row
          ++ (if row ≠ rows - 1 then ['\n'] else []) := by
  unfold lsRow rowChars
  by_cases hr : row = rows - 1 <;>
    simp [hr, foldl_lsCell_data, String.data_push, List.append_assoc]

theorem foldl_lsRow_data (entries : List String) (W rows columns : Nat)
    (l : List Nat) (output : String) :
    ((l.foldl (lsRow entries W rows columns) output)).data
      = output.data
          ++ (l.map (fun row => rowChars entries W rows columns row
                ++ (if row ≠ rows - 1 then ['\n'] else []))).flatten := by
  induction l generalizing output with
  | nil => simp
  | cons r l ih =>
    simp [List.foldl_cons, ih, lsRow_data, List.append_assoc]

theorem intercalate_singleton (s x : List Char) : List.intercalate s [x] = x := by
  simp [List.intercalate]

theorem intercalate_cons₂ (s a b : List Char) (l : List (List Char)) :
    List.intercalate s (a :: b :: l) = a ++ s ++ List.intercalate s (b :: l) := by
  simp [List.intercalate, List.intersperse]

theorem flatten_map_append_newline (L : List (List Char)) (x : List Char) :
    (L.map (· ++ ['\n'])).flatten ++ x = List.intercalate ['\n'] (L ++ [x]) := by
  induction L with
  | nil => simp [intercalate_singleton]
  | cons a L ih =>
    cases L with
    | nil => simp [intercalate_cons₂, intercalate_singleton]
    | cons b L' =>
      have e1 : (a :: b :: L') ++ [x] = a :: b :: (L' ++ [x]) := by simp
      have e2 : (b :: L') ++ [x] = b :: (L' ++ [x]) := by simp
      rw [e1, intercalate_cons₂]
      rw [e2] at ih
      rw [List.map_cons, List.flatten_cons, ← ih]
      simp [List.append_assoc]

theorem rows_flatten_eq_intercalate (g : Nat → List Char) (k : Nat) :
    ((List.range k).map (fun r => g r ++ (if r ≠ k - 1 then ['\n'] else []))).flatten
      = List.intercalate ['\n'] ((List.range k).map g) := by
  cases k with
  | zero => simp [List.intercalate]
  | succ k =>
    rw [List.range_succ]
    simp only [List.map_append, List.map_cons, List.map_nil, List.flatten_append]
    have h1 : (List.range k).map (fun r => g r ++ (if r ≠ k + 1 - 1 then ['\n'] else []))
        = (List.range k).map (fun r => g r ++ ['\n']) := by
      apply List.map_congr_left
      intro r hr
      have : r < k := List.mem_range.mp hr
      simp [Nat.ne_of_lt this]
    rw [h1]
    simp only [Nat.add_sub_cancel, ne_eq, not_true_eq_false, if_neg, ite_false]
    have h2 := flatten_map_append_newline ((List.range k).map g) (g k)
    rw [List.map_map] at h2
    simpa [Function.comp] using h2

/-- Master characterization: a successful run of the formatter produces
exactly the grid, and it succeeds exactly when `columns ≠ 0`. -/
theorem lsFormat_eq_some_iff (entries : List String) (tw : Nat) :
    lsFormat entries tw
      = if lsColumns entries tw = 0 then none
        else some (String.mk (gridChars entries (entryWidth entries)
          (lsRows entries tw) (lsColumns entries tw))) := by
  unfold lsFormat gridChars lsRows lsColumns
  by_cases h : tw / entryWidth entries = 0
  · simp [h]
  · rw [if_neg h, if_neg h]
    refine congrArg some (String.ext ?_)
    rw [foldl_lsRow_data]
    show [] ++ _ = _
    rw [List.nil_append, rows_flatten_eq_intercalate]

/-! ### Basic numeric facts about the layout -/

theorem two_le_entryWidth (entries : List String) : 2 ≤ entryWidth entries :=
  Nat.le_add_left 2 _

theorem length_add_two_le_entryWidth {entries : List String} {e : String}
    (h : e ∈ entries) : e.length + 2 ≤ entryWidth entries := by
  unfold entryWidth
  have : e.length ≤ ((entries.map String.length).max?.getD 0) :=
    List.le_max?_getD_of_mem (List.mem_map_of_mem String.length h)
  omega

theorem le_columns_mul_rows {n columns : Nat} (hc : 1 ≤ columns) :
    n ≤ columns * ((n + columns - 1) / columns) := by
  have h1 := Nat.div_add_mod (n + columns - 1) columns
  have h2 : (n + columns - 1) % columns < columns := Nat.mod_lt _ hc
  omega

theorem rows_le {n columns : Nat} (hc : 1 ≤ columns) :
    (n + columns - 1) / columns ≤ n := by
  rw [Nat.div_le_iff_le_mul_add_pred hc]
  have := Nat.le_mul_of_pos_left n hc
  omega

theorem one_le_rows {n columns : Nat} (hc : 1 ≤ columns) (hn : 1 ≤ n) :
    1 ≤ (n + columns - 1) / columns := by
  rw [Nat.one_le_div_iff hc]
  omega

/-! ### `String.intercalate` and `String.join` at the character level -/

theorem intercalate_go_data (s : String) (as : List String) (acc : String) :
    (String.intercalate.go acc s as).data
      = acc.data ++ (as.map (fun t => s.data ++ t.data)).flatten := by
  induction as generalizing acc with
  | nil => simp [String.intercalate.go]
  | cons a as ih =>
    simp [String.intercalate.go, ih, String.data_append, List.append_assoc]

theorem intercalate_eq_head_flatten (s : List Char) (x : List Char) (xs : List (List Char)) :
    List.intercalate s (x :: xs) = x ++ (xs.map (fun y => s ++ y)).flatten := by
  induction xs generalizing x with
  | nil => simp [intercalate_singleton]
  | cons y ys ih =>
    rw [intercalate_cons₂, ih y]
    simp [List.append_assoc]

theorem string_intercalate_data (s : String) (l : List String) :
    (String.intercalate s l).data = List.intercalate s.data (l.map String.data) := by
  cases l with
  | nil => simp [String.intercalate, List.intercalate]
  | cons a as =>
    rw [String.intercalate]
    rw [intercalate_go_data, List.map_cons, intercalate_eq_head_flatten, List.map_map]
    rfl

theorem string_join_data (l : List String) :
    (String.join l).data = (l.map String.data).flatten := by
  rw [String.join_eq]

theorem specGridCell_data (entries : List String) (W rows columns row column : Nat) :
    (specGridCell entries W rows columns row column).data
      = cellChars entries W rows columns row column := by
  unfold specGridCell cellChars
  cases h : entries[row + column * rows]? with
  | none => rfl
  | some e => by_cases hc : column = columns - 1 <;> simp [hc, String.data_append]

theorem specGrid_data (entries : List String) (columns : Nat) :
    (specGrid entries columns).data
      = gridChars entries (entryWidth entries)
          (entries.length ⌈/⌉ columns) columns := by
  unfold specGrid gridChars entryWidth
  rw [string_intercalate_data, List.map_map]
  show List.intercalate ['\n'] _ = _
  congr 1
  apply List.map_congr_left
  intro r _
  show (String.join _).data = _
  rw [string_join_data, List.map_map]
  unfold rowChars
  congr 1
  apply List.map_congr_left
  intro c _
  exact specGridCell_data _ _ _ _ _ _

/-- Claim C1.  The claim asserts `columns = max(1, terminal_width / entry_width)`
with a floor-to-1 guard.  The code (line 208) has no such guard: with one
entry of length `L = 1` and `terminal_width = L + 1 = 2`, it computes
`columns = 2 / 3 = 0` and the division by zero on line 211 panics; the claimed
single-column output is never produced. -/
theorem lsColumns_no_floor_guard : lsColumns ["a"] 2 = 0 ∧ lsFormat ["a"] 2 = none := by
  constructor <;> rfl

/-- Claim C2.  The claim asserts the non-list grid layout is total for every
entry sequence and positive terminal width.  It is not: at terminal width 1
every entry sequence yields `columns = 0` (since `entry_width ≥ 2`) and the
`rows` computation on line 211 divides by zero, a panic. -/
theorem lsFormat_width_one_panics : lsFormat ["x"] 1 = none := rfl

/-- Claim C3, counterexample:  On `["a","bb","ccc"]` at width 80 the formatter
does not return the claimed `"a    bb   ccc"`: the cell holding `"ccc"` sits
in column 2, which is not the last column (15), so it is padded. -/
theorem lsFormat_example_ne_claimed :
    lsFormat ["a", "bb", "ccc"] 80 ≠ some "a    bb   ccc" := by decide

/-- Claim C3, amended.  On `["a","bb","ccc"]` at width 80: `entry_width = 5`,
`columns = 16`, `rows = 1`, and the output is `"a    bb   ccc  "` — the last
populated cell is padded to 5 cells as well, because padding is skipped only
in the literal last column (`column = columns - 1 = 15`), which is empty here. -/
theorem lsFormat_example_output :
    entryWidth ["a", "bb", "ccc"] = 5 ∧
    lsColumns ["a", "bb", "ccc"] 80 = 16 ∧
    lsRows ["a", "bb", "ccc"] 80 = 1 ∧
    lsFormat ["a", "bb", "ccc"] 80 = some "a    bb   ccc  " := by
  refine ⟨rfl, rfl, rfl, ?_⟩
  decide

/-- Claim C5, failing width:  The claim says the empty entry sequence gives the
empty string regardless of the terminal width; at width 1 the code instead
computes `columns = 1 / 2 = 0` and panics on line 211. -/
theorem lsFormat_nil_width_one_panics : lsFormat [] 1 = none := rfl

/-- Claim C5.  For the empty entry sequence the formatter returns the empty
string whenever `terminal_width ≥ 2` (so that `columns = width / 2 ≥ 1` and
the row count `(0 + columns - 1) / columns` is 0, producing no rows). -/
theorem lsFormat_nil_eq_empty (w : Nat) (h : 2 ≤ w) : lsFormat [] w = some "" := by
  have hc : 1 ≤ w / 2 := (Nat.one_le_div_iff (by norm_num)).mpr h
  have hcol : lsColumns [] w = w / 2 := rfl
  have hrows : lsRows [] w = 0 := by
    show (0 + w / 2 - 1) / (w / 2) = 0
    exact Nat.div_eq_of_lt (by omega)
  rw [lsFormat_eq_some_iff, if_neg (by omega), hrows]
  rfl

theorem lsFormat_nil_eq_empty_witness : 2 ≤ 80 ∧ lsFormat [] 80 = some "" :=
  ⟨by decide, lsFormat_nil_eq_empty 80 (by decide)⟩

/-- Claim C6.  Whenever `columns ≥ 1` (so the formatter does not panic), the
computed row count equals `⌈n / columns⌉` and the produced string is exactly
the spec's grid: cell `(row, column)` shows `entries[row + column * rows]`,
out-of-range cells are empty and unpadded, populated cells in any column
other than the last are padded to `entry_width`, and rows are joined by
single newlines. -/
theorem lsFormat_eq_specGrid (entries : List String) (tw : Nat)
    (h : 1 ≤ lsColumns entries tw) :
    lsRows entries tw = entries.length ⌈/⌉ lsColumns entries tw ∧
    lsFormat entries tw = some (specGrid entries (lsColumns entries tw)) := by
  have hceil : entries.length ⌈/⌉ lsColumns entries tw = lsRows entries tw := by
    rw [Nat.ceilDiv_eq_add_pred_div]; rfl
  refine ⟨hceil.symm, ?_⟩
  rw [lsFormat_eq_some_iff, if_neg (by omega)]
  refine congrArg some (String.ext ?_)
  rw [specGrid_data, hceil]

theorem lsFormat_eq_specGrid_witness :
    1 ≤ lsColumns ["a", "bb", "ccc"] 80 ∧
      (lsRows ["a", "bb", "ccc"] 80
          = (["a", "bb", "ccc"] : List String).length ⌈/⌉ lsColumns ["a", "bb", "ccc"] 80 ∧
       lsFormat ["a", "bb", "ccc"] 80
          = some (specGrid ["a", "bb", "ccc"] (lsColumns ["a", "bb", "ccc"] 80))) :=
  ⟨by decide, lsFormat_eq_specGrid ["a", "bb", "ccc"] 80 (by decide)⟩

/-- Claim C9.  The formatter is deterministic: two runs on the same entry
sequence and terminal width produce the same result — it is a pure function
of its two inputs, with no other state. -/
theorem lsFormat_deterministic (entries : List String) (tw : Nat)
    (o₁ o₂ : Option String) (h₁ : lsFormat entries tw = o₁)
    (h₂ : lsFormat entries tw = o₂) : o₁ = o₂ :=
  h₁.symm.trans h₂

theorem lsFormat_deterministic_witness : (some "a  " : Option String) = some "a  " :=
  lsFormat_deterministic ["a"] 80 (some "a  ") (some "a  ") rfl rfl

/-- Claim C10.  If `fs::metadata` succeeds and reports that the path is not a
directory, `ls` returns the path string itself (line 115), regardless of the
`--all` flag, of whatever the directory scan would have yielded, and of the
terminal width — no scan, filter, or layout affects the result. -/
theorem lsRun_non_directory (path : String) (all : Bool) (names : List String)
    (termWidth : Option Nat) : lsRun path all (some false) names termWidth = some path := rfl

theorem lsRun_non_directory_witness :
    lsRun "file.txt" false (some false) ["x"] (some 80) = some "file.txt" :=
  lsRun_non_directory "file.txt" false ["x"] (some 80)

/-! ### The entry pipeline: sortedness and dot-file filtering -/

theorem strLe_iff (a b : String) : strLe a b = true ↔ a ≤ b := by
  simp [strLe]

theorem strLe_trans : ∀ a b c : String, strLe a b = true → strLe b c = true → strLe a c = true :=
  fun a b c hab hbc =>
    (strLe_iff a c).mpr (le_trans ((strLe_iff a b).mp hab) ((strLe_iff b c).mp hbc))

theorem strLe_total : ∀ a b : String, (strLe a b || strLe b a) = true := by
  intro a b
  rcases le_total a b with h | h <;> simp [strLe, h]

theorem lsEntryStrings_sorted (all : Bool) (dir : String) (names : List String) :
    List.Sorted (· ≤ ·) (lsEntryStrings all dir names) := by
  unfold lsEntryStrings
  exact List.Pairwise.imp (fun hab => (strLe_iff _ _).mp hab)
    (List.sorted_mergeSort strLe_trans strLe_total _)

theorem lsEntryStrings_perm (all : Bool) (dir : String) (names : List String) :
    (lsEntryStrings all dir names).Perm
      ((if all then names else names.filter (fun name => !(startsWithDot name))).map
        (fun name => dir ++ "/" ++ name)) := by
  unfold lsEntryStrings
  exact List.mergeSort_perm _ _

theorem joined_path_injective (dir a b : String) (h : dir ++ "/" ++ a = dir ++ "/" ++ b) :
    a = b := by
  apply String.ext
  have hd := congrArg String.data h
  simpa [String.data_append] using hd

/-- Claim C8.  The entry sequence handed to the formatter is sorted ascending
(lexicographically on the path strings, all of the form `dir/name`), excludes
every entry whose file name starts with `'.'` when `--all` is unset, and is
exactly a permutation of the (filtered) directory contents — the sort placed
before the formatter is the only reordering anywhere in `ls`. -/
theorem lsEntryStrings_spec (dir : String) (names : List String) :
    (∀ all, List.Sorted (· ≤ ·) (lsEntryStrings all dir names)) ∧
    (∀ name ∈ names, startsWithDot name = true →
        (dir ++ "/" ++ name) ∉ lsEntryStrings false dir names) ∧
    (lsEntryStrings false dir names).Perm
        ((names.filter (fun name => !(startsWithDot name))).map
          (fun name => dir ++ "/" ++ name)) ∧
    (lsEntryStrings true dir names).Perm (names.map (fun name => dir ++ "/" ++ name)) := by
  have hfalse := lsEntryStrings_perm false dir names
  have htrue := lsEntryStrings_perm true dir names
  simp only [Bool.false_eq_true, if_false, if_true] at hfalse htrue
  refine ⟨fun all => lsEntryStrings_sorted all dir names, ?_, hfalse, htrue⟩
  intro name _ hdot hin
  have hin' := hfalse.mem_iff.mp hin
  obtain ⟨m, hmf, heq⟩ := List.mem_map.mp hin'
  obtain ⟨-, hmdot⟩ := List.mem_filter.mp hmf
  rw [joined_path_injective dir m name heq] at hmdot
  rw [hdot] at hmdot
  simp at hmdot

theorem lsEntryStrings_spec_witness :
    List.Sorted (· ≤ ·) (lsEntryStrings false "." ["b", ".a", "a"]) ∧
    ("." ++ "/" ++ ".a") ∉ lsEntryStrings false "." ["b", ".a", "a"] :=
  ⟨(lsEntryStrings_spec "." ["b", ".a", "a"]).1 false,
   (lsEntryStrings_spec "." ["b", ".a", "a"]).2.1 ".a" (by decide) (by decide)⟩

/-! ### No trailing newline -/

theorem mem_of_getElem?_some {α : Type} {l : List α} {i : Nat} {e : α}
    (h : l[i]? = some e) : e ∈ l := by
  obtain ⟨hb, rfl⟩ := List.getElem?_eq_some.mp h
  exact List.getElem_mem hb

theorem cellChars_no_newline {entries : List String} {W rows columns row column : Nat}
    (hnl : ∀ e ∈ entries, '\n' ∉ e.data) :
    '\n' ∉ cellChars entries W rows columns row column := by
  unfold cellChars
  cases h : entries[row + column * rows]? with
  | none => simp
  | some e =>
    have he := hnl e (mem_of_getElem?_some h)
    by_cases hc : column = columns - 1 <;>
      simp [hc, List.mem_append, List.mem_replicate, he]

theorem rowChars_no_newline {entries : List String} {W rows columns row : Nat}
    (hnl : ∀ e ∈ entries, '\n' ∉ e.data) :
    '\n' ∉ rowChars entries W rows columns row := by
  unfold rowChars
  intro hmem
  obtain ⟨l, hl, hcl⟩ := List.mem_flatten.mp hmem
  obtain ⟨c, -, rfl⟩ := List.mem_map.mp hl
  exact cellChars_no_newline hnl hcl

theorem cellChars_populated {entries : List String} {rows columns row column : Nat}
    (hnl : ∀ e ∈ entries, '\n' ∉ e.data) (hne : ∀ e ∈ entries, e.data ≠ [])
    (hlt : row + column * rows < entries.length) :
    cellChars entries (entryWidth entries) rows columns row column ≠ [] ∧
    (cellChars entries (entryWidth entries) rows columns row column).getLast? ≠ some '\n' := by
  have hmem : entries[row + column * rows] ∈ entries := List.getElem_mem hlt
  unfold cellChars
  simp only [List.getElem?_eq_getElem hlt]
  by_cases hc : column = columns - 1
  · rw [if_neg (not_ne_iff.mpr hc)]
    refine ⟨hne _ hmem, ?_⟩
    cases hl : (entries[row + column * rows]).data.getLast? with
    | none => simp
    | some y =>
      intro hcontra
      have hy : y ∈ (entries[row + column * rows]).data := List.mem_of_mem_getLast? hl
      obtain rfl : y = '\n' := Option.some.inj hcontra
      exact hnl _ hmem hy
  · rw [if_pos hc]
    have hw := length_add_two_le_entryWidth hmem
    have hk : entryWidth entries - (entries[row + column * rows]).length ≠ 0 := by omega
    constructor
    · intro hcontra
      rcases List.append_eq_nil.mp hcontra with ⟨-, hrep⟩
      exact hk (by simpa using congrArg List.length hrep)
    · rw [List.getLast?_append, List.getLast?_replicate, if_neg hk]
      intro hcontra
      have : (' ' : Char) = '\n' := Option.some.inj hcontra
      exact absurd this (by decide)

theorem flatten_getLast?_ne (c0 : Char) (L : List (List Char)) :
    (∀ x ∈ L, x = [] ∨ (x ≠ [] ∧ x.getLast? ≠ some c0)) → L.flatten ≠ [] →
      L.flatten.getLast? ≠ some c0 := by
  induction L using List.reverseRecOn with
  | nil => intro _ hf; simp at hf
  | append_singleton L x ih =>
    intro h hf
    rw [List.flatten_append, List.flatten_cons, List.flatten_nil, List.append_nil] at hf ⊢
    rcases h x (by simp) with hx | ⟨hxne, hxlast⟩
    · subst hx
      rw [List.append_nil] at hf ⊢
      exact ih (fun y hy => h y (by simp [hy])) hf
    · rw [List.getLast?_append]
      obtain ⟨y, hy⟩ := Option.isSome_iff_exists.mp (List.getLast?_isSome.mpr hxne)
      rw [hy]
      rw [hy] at hxlast
      simpa using hxlast

/-- Claim C7.  A successful formatter run yields the rows joined by single
newline separators — each row is terminated by a newline except the final
one — and (for entry names that are nonempty and newline-free, as directory
entries are) the output never ends in a newline character. -/
theorem lsFormat_no_trailing_newline (entries : List String) (tw : Nat) (out : String)
    (h : lsFormat entries tw = some out)
    (hnl : ∀ e ∈ entries, '\n' ∉ e.data)
    (hne : ∀ e ∈ entries, e.data ≠ []) :
    out.data = List.intercalate ['\n']
        ((List.range (lsRows entries tw)).map
          (rowChars entries (entryWidth entries) (lsRows entries tw) (lsColumns entries tw))) ∧
    out.data.getLast? ≠ some '\n' := by
  rw [lsFormat_eq_some_iff] at h
  by_cases hc : lsColumns entries tw = 0
  · rw [if_pos hc] at h
    exact Option.noConfusion h
  rw [if_neg hc] at h
  have hdata : out.data = gridChars entries (entryWidth entries)
      (lsRows entries tw) (lsColumns entries tw) :=
    (congrArg String.data (Option.some.inj h)).symm
  refine ⟨by rw [hdata]; rfl, ?_⟩
  rw [hdata]
  rcases Nat.eq_zero_or_pos entries.length with hn | hn
  · have hrows : lsRows entries tw = 0 := by
      unfold lsRows
      rw [hn]
      exact Nat.div_eq_of_lt (by omega)
    unfold gridChars
    rw [hrows]
    simp [List.intercalate]
  · have hrl : lsRows entries tw ≤ entries.length := by
      unfold lsRows
      exact rows_le (by omega)
    have hrpos : 1 ≤ lsRows entries tw := by
      unfold lsRows
      exact one_le_rows (by omega) hn
    obtain ⟨k, hk⟩ : ∃ k, lsRows entries tw = k + 1 :=
      ⟨lsRows entries tw - 1, by omega⟩
    unfold gridChars
    rw [hk, List.range_succ, List.map_append, List.map_cons, List.map_nil,
      ← flatten_map_append_newline, List.getLast?_append]
    have hpop : k + 0 * (k + 1) < entries.length := by omega
    have hone : rowChars entries (entryWidth entries) (k + 1) (lsColumns entries tw) k ≠ [] := by
      intro hempty
      have h0 : cellChars entries (entryWidth entries) (k + 1) (lsColumns entries tw) k 0 = [] := by
        refine (List.flatten_eq_nil_iff.mp hempty) _ ?_
        exact List.mem_map_of_mem _ (List.mem_range.mpr (by omega))
      exact (cellChars_populated hnl hne hpop).1 h0
    have hlastne : (rowChars entries (entryWidth entries) (k + 1)
        (lsColumns entries tw) k).getLast? ≠ some '\n' := by
      unfold rowChars
      apply flatten_getLast?_ne
      · intro x hx
        obtain ⟨c, -, rfl⟩ := List.mem_map.mp hx
        by_cases hp : k + c * (k + 1) < entries.length
        · exact Or.inr (cellChars_populated hnl hne hp)
        · refine Or.inl ?_
          unfold cellChars
          rw [List.getElem?_eq_none (by omega)]
      · exact hone
    obtain ⟨y, hy⟩ := Option.isSome_iff_exists.mp (List.getLast?_isSome.mpr hone)
    rw [hy]
    rw [hy] at hlastne
    simpa using hlastne

theorem lsFormat_no_trailing_newline_witness :
    ("a    bb   ccc  " : String).data = List.intercalate ['\n']
        ((List.range (lsRows ["a", "bb", "ccc"] 80)).map
          (rowChars ["a", "bb", "ccc"] (entryWidth ["a", "bb", "ccc"])
            (lsRows ["a", "bb", "ccc"] 80) (lsColumns ["a", "bb", "ccc"] 80))) ∧
    ("a    bb   ccc  " : String).data.getLast? ≠ some '\n' :=
  lsFormat_no_trailing_newline ["a", "bb", "ccc"] 80 "a    bb   ccc  "
    (by decide) (by decide) (by decide)

theorem splitOnNl_ne_nil (l : List Char) : splitOnNl l ≠ [] := by
  cases l with
  | nil => simp [splitOnNl]
  | cons c cs =>
    unfold splitOnNl
    cases splitOnNl cs with
    | nil => simp
    | cons r rs => by_cases h : c = '\n' <;> simp [h]

theorem splitOnNl_of_no_newline (l : List Char) (h : '\n' ∉ l) : splitOnNl l = [l] := by
  induction l with
  | nil => rfl
  | cons c cs ih =>
    have hc : c ≠ '\n' := fun hcc => h (hcc ▸ List.mem_cons_self c cs)
    have hcs : '\n' ∉ cs := fun hm => h (List.mem_cons_of_mem c hm)
    unfold splitOnNl
    rw [ih hcs]
    simp [hc]

theorem splitOnNl_cons (c : Char) (cs : List Char) :
    splitOnNl (c :: cs)
      = match splitOnNl cs with
        | [] => [[c]]
        | r :: rs => if c = '\n' then [] :: r :: rs else (c :: r) :: rs := rfl

theorem splitOnNl_append_newline (x : List Char) (t : List Char) (h : '\n' ∉ x) :
    splitOnNl (x ++ '\n' :: t) = x :: splitOnNl t := by
  induction x with
  | nil =>
    obtain ⟨r, rs, hrs⟩ : ∃ r rs, splitOnNl t = r :: rs := by
      cases hsp : splitOnNl t with
      | nil => exact absurd hsp (splitOnNl_ne_nil t)
      | cons r rs => exact ⟨r, rs, rfl⟩
    show splitOnNl ('\n' :: t) = [] :: splitOnNl t
    rw [splitOnNl_cons, hrs]
    simp
  | cons c x ih =>
    have hc : c ≠ '\n' := fun hcc => h (hcc ▸ List.mem_cons_self c x)
    have hx : '\n' ∉ x := fun hm => h (List.mem_cons_of_mem c hm)
    show splitOnNl (c :: (x ++ '\n' :: t)) = (c :: x) :: splitOnNl t
    rw [splitOnNl_cons, ih hx]
    simp [hc]

theorem splitOnNl_intercalate (L : List (List Char))
    (h : ∀ r ∈ L, '\n' ∉ r) (hne : L ≠ []) :
    splitOnNl (List.intercalate ['\n'] L) = L := by
  induction L with
  | nil => exact absurd rfl hne
  | cons x xs ih =>
    cases xs with
    | nil =>
      rw [intercalate_singleton]
      exact splitOnNl_of_no_newline x (h x (by simp))
    | cons y ys =>
      rw [intercalate_cons₂, List.append_assoc, List.singleton_append,
        splitOnNl_append_newline x _ (h x (by simp)),
        ih (fun r hr => h r (by simp [hr])) (by simp)]

theorem dropWhile_space_replicate (k : Nat) :
    List.dropWhile (fun c => c = ' ') (List.replicate k ' ') = [] := by
  induction k with
  | zero => rfl
  | succ k ih =>
    rw [List.replicate_succ, List.dropWhile_cons]
    simp [ih]

theorem dropTrailingSpaces_append_replicate (l : List Char) (k : Nat)
    (h : dropTrailingSpaces l = l) :
    dropTrailingSpaces (l ++ List.replicate k ' ') = l := by
  unfold dropTrailingSpaces at h ⊢
  rw [List.reverse_append, List.reverse_replicate, List.dropWhile_append]
  simp only [dropWhile_space_replicate, List.isEmpty_nil, if_true, ite_true]
  exact h

theorem flatten_drop_blocks (j : Nat) :
    ∀ (L : List (List Char)) (W : Nat), (∀ i, i < j → (L.getD i []).length = W) →
      L.flatten.drop (j * W) = (L.drop j).flatten := by
  induction j with
  | zero => intro L W _; simp
  | succ j ih =>
    intro L W h
    cases L with
    | nil => simp
    | cons x L =>
      have hx : x.length = W := by simpa using h 0 (Nat.succ_pos j)
      rw [List.flatten_cons, List.drop_succ_cons,
        show (j + 1) * W = x.length + j * W from by rw [hx]; ring,
        List.drop_append]
      exact ih L W (fun i hi => by simpa using h (i + 1) (by omega))

theorem filterMap_getElem_range (k b : Nat) (l : List (List Char)) :
    (List.range k).filterMap (fun r => l[b + r]?) = (l.drop b).take k := by
  induction k with
  | zero => simp
  | succ k ih =>
    rw [List.range_succ, List.filterMap_append, ih, List.take_succ]
    congr 1
    rw [List.getElem?_drop]
    cases h : l[b + k]? <;> simp [List.filterMap_cons, h]

theorem flatMap_take_blocks (cols rows : Nat) (l : List (List Char)) :
    (List.range cols).flatMap (fun c => (l.drop (c * rows)).take rows)
      = l.take (cols * rows) := by
  induction cols with
  | zero => simp
  | succ cols ih =>
    rw [List.range_succ, List.flatMap_append, ih,
      show (cols + 1) * rows = cols * rows + rows from by ring, List.take_add]
    congr 1
    simp

theorem filterMap_congr_left {α β : Type} (l : List α) (f g : α → Option β)
    (h : ∀ a ∈ l, f a = g a) : l.filterMap f = l.filterMap g := by
  induction l with
  | nil => rfl
  | cons a l ih =>
    rw [List.filterMap_cons, List.filterMap_cons, h a (by simp),
      ih (fun b hb => h b (by simp [hb]))]

theorem cellChars_length_of_populated {entries : List String} {rows columns r i : Nat}
    (hic : i ≠ columns - 1) (hilt : r + i * rows < entries.length) :
    (cellChars entries (entryWidth entries) rows columns r i).length
      = entryWidth entries := by
  unfold cellChars
  simp only [List.getElem?_eq_getElem hilt]
  rw [if_pos hic]
  have hw := length_add_two_le_entryWidth (List.getElem_mem hilt)
  have hdl : (entries[r + i * rows]).data.length = (entries[r + i * rows]).length := rfl
  simp only [List.length_append, List.length_replicate]
  omega

theorem extractCellChars_rowChars {entries : List String} {rows columns : Nat} {r c : Nat}
    (hsp : ∀ e ∈ entries, dropTrailingSpaces e.data = e.data)
    (hc : c < columns) (hlt : r + c * rows < entries.length) :
    extractCellChars (rowChars entries (entryWidth entries) rows columns r)
        (entryWidth entries) columns c
      = (entries.get ⟨r + c * rows, hlt⟩).data := by
  have hpre : ∀ i, i < c →
      (((List.range columns).map
        (cellChars entries (entryWidth entries) rows columns r)).getD i []).length
        = entryWidth entries := by
    intro i hi
    have hic : i < columns := lt_trans hi hc
    rw [List.getD_eq_getElem?_getD, List.getElem?_map, List.getElem?_range hic]
    have hilt : r + i * rows < entries.length := by
      have := Nat.mul_le_mul_right rows (le_of_lt hi)
      omega
    simp only [Option.map_some', Option.getD_some]
    exact cellChars_length_of_populated (by omega) hilt
  have hdrop : (rowChars entries (entryWidth entries) rows columns r).drop
      (c * entryWidth entries)
      = cellChars entries (entryWidth entries) rows columns r c
          ++ (((List.range columns).drop (c + 1)).map
            (cellChars entries (entryWidth entries) rows columns r)).flatten := by
    unfold rowChars
    rw [flatten_drop_blocks c _ _ hpre, ← List.map_drop,
      List.drop_eq_getElem_cons (by simpa using hc), List.getElem_range,
      List.map_cons, List.flatten_cons]
  by_cases hlast : c = columns - 1
  · unfold extractCellChars
    rw [if_pos hlast, hdrop]
    have hnil : (List.range columns).drop (c + 1) = [] := by
      have hd := List.drop_length (List.range columns)
      rw [List.length_range] at hd
      rw [show c + 1 = columns from by omega]
      exact hd
    rw [hnil, List.map_nil, List.flatten_nil, List.append_nil]
    unfold cellChars
    simp only [List.getElem?_eq_getElem hlt]
    rw [if_neg (not_ne_iff.mpr hlast)]
    rfl
  · unfold extractCellChars
    rw [if_neg hlast, hdrop]
    have hlen : (cellChars entries (entryWidth entries) rows columns r c).length
        = entryWidth entries := cellChars_length_of_populated hlast hlt
    rw [List.take_left' hlen]
    unfold cellChars
    simp only [List.getElem?_eq_getElem hlt]
    rw [if_pos hlast]
    exact dropTrailingSpaces_append_replicate _ _ (hsp _ (List.getElem_mem hlt))

/-- Claim C4.  Whenever the formatter succeeds (`columns ≥ 1`), re-extracting the
entries from its output — splitting the output at the newline row separators,
slicing each row into `entry_width`-wide cells, stripping the padding, and
reading the grid column-major — reproduces exactly the input sequence in its
original order; every entry appears exactly once.  Entries are assumed
newline-free and without trailing spaces (true of the padding-based format's
domain), so that the splitting is well defined. -/
theorem lsFormat_column_major_roundtrip (entries : List String) (tw : Nat) (out : String)
    (h : lsFormat entries tw = some out)
    (hn : entries ≠ [])
    (hnl : ∀ e ∈ entries, '\n' ∉ e.data)
    (hsp : ∀ e ∈ entries, dropTrailingSpaces e.data = e.data) :
    extractEntries out.data (entryWidth entries) (lsRows entries tw)
        (lsColumns entries tw) entries.length = entries.map String.data := by
  rw [lsFormat_eq_some_iff] at h
  by_cases hc0 : lsColumns entries tw = 0
  · rw [if_pos hc0] at h
    exact Option.noConfusion h
  rw [if_neg hc0] at h
  have hdata : out.data = gridChars entries (entryWidth entries)
      (lsRows entries tw) (lsColumns entries tw) :=
    (congrArg String.data (Option.some.inj h)).symm
  have hnpos : 0 < entries.length := List.length_pos.mpr hn
  have hrpos : 1 ≤ lsRows entries tw := by
    unfold lsRows
    exact one_le_rows (by omega) hnpos
  have hsplit : splitOnNl out.data
      = (List.range (lsRows entries tw)).map
        (rowChars entries (entryWidth entries) (lsRows entries tw) (lsColumns entries tw)) := by
    rw [hdata]
    unfold gridChars
    apply splitOnNl_intercalate
    · intro rr hrr
      obtain ⟨ri, -, rfl⟩ := List.mem_map.mp hrr
      exact rowChars_no_newline hnl
    · simp only [ne_eq, List.map_eq_nil_iff, List.range_eq_nil]
      omega
  unfold extractEntries
  rw [hsplit]
  have hcol : ∀ c ∈ List.range (lsColumns entries tw),
      (List.range (lsRows entries tw)).filterMap (fun row =>
        if row + c * lsRows entries tw < entries.length then
          some (extractCellChars
            (((List.range (lsRows entries tw)).map
              (rowChars entries (entryWidth entries) (lsRows entries tw)
                (lsColumns entries tw))).getD row [])
            (entryWidth entries) (lsColumns entries tw) c)
        else none)
      = ((entries.map String.data).drop (c * lsRows entries tw)).take (lsRows entries tw) := by
    intro c hcr
    have hcc : c < lsColumns entries tw := List.mem_range.mp hcr
    rw [← filterMap_getElem_range (lsRows entries tw) (c * lsRows entries tw)]
    apply filterMap_congr_left
    intro rr hrr
    have hrrlt : rr < lsRows entries tw := List.mem_range.mp hrr
    have hgetD : ((List.range (lsRows entries tw)).map
        (rowChars entries (entryWidth entries) (lsRows entries tw)
          (lsColumns entries tw))).getD rr []
        = rowChars entries (entryWidth entries) (lsRows entries tw)
            (lsColumns entries tw) rr := by
      rw [List.getD_eq_getElem?_getD, List.getElem?_map, List.getElem?_range hrrlt]
      simp
    by_cases hp : rr + c * lsRows entries tw < entries.length
    · rw [if_pos hp, hgetD, extractCellChars_rowChars hsp hcc hp,
        List.getElem?_map,
        show c * lsRows entries tw + rr = rr + c * lsRows entries tw from by omega,
        List.getElem?_eq_getElem hp]
      rfl
    · rw [if_neg hp, List.getElem?_map,
        show c * lsRows entries tw + rr = rr + c * lsRows entries tw from by omega,
        List.getElem?_eq_none (by omega)]
      rfl
  rw [List.flatMap_def, List.map_congr_left hcol, ← List.flatMap_def, flatMap_take_blocks]
  apply List.take_of_length_le
  rw [List.length_map]
  have hle := @le_columns_mul_rows entries.length (lsColumns entries tw) (by omega)
  unfold lsRows
  exact hle

theorem lsFormat_column_major_roundtrip_witness :
    extractEntries ("a    bb   ccc  " : String).data (entryWidth ["a", "bb", "ccc"])
        (lsRows ["a", "bb", "ccc"] 80) (lsColumns ["a", "bb", "ccc"] 80)
        (["a", "bb", "ccc"] : List String).length
      = (["a", "bb", "ccc"] : List String).map String.data :=
  lsFormat_column_major_roundtrip ["a", "bb", "ccc"] 80 "a    bb   ccc  "
    (by decide) (by decide) (by decide) (by decide)
